import Mathlib

/-!
Verification of the WordleSolver engine (solver.py / filters.py).

Words are embedded as `List Char`. Python operations that can raise are
embedded as `Option`-valued functions (`none` = the call raises).
Python `dict`s are embedded as insertion-ordered association lists
(misplaced-letter dict) or as total functions with default `0`
(`dict.get(k, 0)`-style distributions). Integers are unbounded in both
Python and the embedding (`Int`/`Nat`). The embedding targets the ASCII
inputs the program is designed for: character classification
(`isdigit`, `lower`, whitespace) is modelled for ASCII.
-/

namespace WordleSolver

/-- The six ASCII characters stripped by Python `str.strip()`. -/
def pyIsSpace (c : Char) : Bool :=
  c = ' ' || c = '\t' || c = '\n' || c = '\r' || c = '\x0b' || c = '\x0c'

/-- Python `s.strip()`: drop whitespace from both ends. -/
def pyStrip (s : List Char) : List Char :=
  ((s.dropWhile pyIsSpace).reverse.dropWhile pyIsSpace).reverse

/-- Python `s.split(sep)` for a one-character separator: splitting the
empty string gives `[""]`, adjacent separators give empty fields. -/
def pySplit (sep : Char) : List Char → List (List Char)
  | [] => [[]]
  | c :: rest =>
      match pySplit sep rest with
      | [] => if c = sep then [[], []] else [[c]]
      | h :: t => if c = sep then [] :: h :: t else (c :: h) :: t

/-- Python `s.isdigit()` on ASCII input: nonempty and all digits. -/
def pyIsdigit (s : List Char) : Bool :=
  !s.isEmpty && s.all Char.isDigit

/-- Decimal value of a digit string. -/
def strToNat (s : List Char) : Nat :=
  s.foldl (fun acc c => acc * 10 + (c.toNat - 48)) 0

/-- No two adjacent underscores (part of Python `int()` literal syntax). -/
def noDoubleUnderscore : List Char → Bool
  | c1 :: c2 :: rest =>
      !(c1 = '_' && c2 = '_') && noDoubleUnderscore (c2 :: rest)
  | _ => true

/-- A valid unsigned body for Python `int()`: nonempty, digits with
optional single underscores strictly between digits. -/
def isIntBody (s : List Char) : Bool :=
  !s.isEmpty && s.all (fun c => c.isDigit || c = '_') &&
  (match s.head? with | some c => c.isDigit | none => false) &&
  (match s.getLast? with | some c => c.isDigit | none => false) &&
  noDoubleUnderscore s

/-- Value of a valid `int()` body, ignoring underscores. -/
def intBodyVal (s : List Char) : Nat :=
  strToNat (s.filter (fun c => c ≠ '_'))

/-- Python `int(s)` on an already-stripped ASCII string: optional sign
then a digit body; `none` models the `ValueError`. -/
def pyInt (s : List Char) : Option Int :=
  match s with
  | '+' :: rest => if isIntBody rest then some ((intBodyVal rest : Int)) else none
  | '-' :: rest => if isIntBody rest then some (-(intBodyVal rest : Int)) else none
  | _ => if isIntBody s then some ((intBodyVal s : Int)) else none

/-- Accumulator loop of `get_word_mask`: `mask |= 1 << (ord(c) - ord('a'))`
over the lowered word.  A character below `'a'` makes the shift count
negative, which raises `ValueError` in Python (`none` here). -/
def maskAux (acc : Nat) : List Char → Option Nat
  | [] => some acc
  | c :: rest =>
      if c.toNat < 97 then none
      else maskAux (acc ||| (1 <<< (c.toNat - 97))) rest

/-- `get_word_mask(word)`: bitmask of the set of letters of the lowered
word; raises (`none`) when a lowered character is below `'a'`. -/
def get_word_mask (w : List Char) : Option Nat :=
  maskAux 0 (w.map Char.toLower)

/-- A corpus entry: word, frequency, precomputed letter-set bitmask. -/
structure WordEntry where
  word : List Char
  freq : Int
  mask : Nat
deriving DecidableEq, Repr

/-- The misplaced-letter dictionary: an insertion-ordered association
list from letter strings to sets of 0-indexed forbidden positions
(Python `dict` preserves insertion order). -/
abbrev Misplaced := List (List Char × Finset Int)

/-- `misplaced[letter].update(positions)` when the key exists, else
`misplaced[letter] = positions` (appended, preserving dict order). -/
def updateMisplaced (m : Misplaced) (k : List Char) (v : Finset Int) : Misplaced :=
  if m.any (fun p => p.1 = k) then
    m.map (fun p => if p.1 = k then (p.1, p.2 ∪ v) else p)
  else m ++ [(k, v)]

/-- The set comprehension over `pos_part.split(",")`: keep tokens whose
strip is all digits, convert 1-based to 0-based (so token `0` yields
position `-1`). -/
def parsePositions (pp : List Char) : Finset Int :=
  (((pySplit ',' pp).filter (fun p => pyIsdigit (pyStrip p))).map
    (fun p => (strToNat (pyStrip p) : Int) - 1)).toFinset

/-- One iteration of the parser loop.  An entry without `:` is skipped.
An entry with a colon is unpacked by `entry.split(":")` into exactly two
parts; two or more colons make the unpacking raise `ValueError` (`none`). -/
def parseMisplacedEntry (m : Misplaced) (entry : List Char) : Option Misplaced :=
  if entry.contains ':' then
    match pySplit ':' entry with
    | [lp, pp] =>
        some (updateMisplaced m ((pyStrip lp).map Char.toLower) (parsePositions pp))
    | _ => none
  else some m

/-- The parser loop over the `;`-separated entries. -/
def parseMisplacedAux : List (List Char) → Misplaced → Option Misplaced
  | [], m => some m
  | e :: rest, m =>
      match parseMisplacedEntry m e with
      | none => none
      | some m2 => parseMisplacedAux rest m2

/-- `parse_misplaced_letters(s)`: empty/whitespace-only input yields the
empty dict; otherwise fold the entry parser over `s.split(";")`. -/
def parse_misplaced_letters (s : List Char) : Option Misplaced :=
  if pyStrip s = [] then some []
  else parseMisplacedAux (pySplit ';' s) []

/-- One line of `_load_word_list`.  Outer `none`: the line raises
(negative shift in `get_word_mask`).  `some none`: the line is silently
skipped (field count not 2, or non-integer frequency).  `some (some e)`:
the line contributes entry `e`. -/
def loadLine (line : List Char) : Option (Option WordEntry) :=
  match pySplit ',' (pyStrip line) with
  | [wp, fp] =>
      match pyInt (pyStrip fp) with
      | none => some none
      | some freq =>
          match get_word_mask (pyStrip wp) with
          | none => none
          | some mask => some (some ⟨pyStrip wp, freq, mask⟩)
  | _ => some none

/-- `_load_word_list` over the file's lines: accumulate entries in
order; a raising line aborts the whole load. -/
def load_word_list : List (List Char) → Option (List WordEntry)
  | [] => some []
  | l :: rest =>
      match loadLine l with
      | none => none
      | some none => load_word_list rest
      | some (some e) => (load_word_list rest).map (e :: ·)

/-- A line is well-formed when `line.strip().split(",")` has exactly two
fields and the stripped frequency field parses as a Python `int`. -/
def wellFormedLine (line : List Char) : Bool :=
  match pySplit ',' (pyStrip line) with
  | [_, fp] => (pyInt (pyStrip fp)).isSome
  | _ => false

/-- The entry a line contributes, if any (skipped and raising lines
contribute nothing). -/
def lineEntry (line : List Char) : Option WordEntry :=
  match loadLine line with
  | some (some e) => some e
  | _ => none

/-- The stripped word field of a line (first of the two comma fields). -/
def wordField (line : List Char) : List Char :=
  match pySplit ',' (pyStrip line) with
  | [wp, _] => pyStrip wp
  | _ => []

/-- The stripped frequency field of a line (second comma field). -/
def freqField (line : List Char) : List Char :=
  match pySplit ',' (pyStrip line) with
  | [_, fp] => pyStrip fp
  | _ => []

/-- The pattern loop of `filter_word_with_mask`: at each non-wildcard
pattern index the word is indexed without a bounds guard, so an index at
or beyond the word's length raises `IndexError` (`none`). -/
def patternCheck (lower : List Char) : List Char → Nat → Option Bool
  | [], _ => some true
  | p :: rest, i =>
      if p = '_' then patternCheck lower rest (i + 1)
      else
        match lower.get? i with
        | none => none
        | some c =>
            if c ≠ p.toLower then some false
            else patternCheck lower rest (i + 1)

/-- The misplaced-letters loop.  `get_char_mask(letter)` is
`1 << (ord(letter) - ord('a'))`: `ord` raises on a non-single-character
key and the shift raises on a key below `'a'` (`none`).  Position checks
are bounds-guarded. -/
def misplacedCheck (wordMask : Nat) (lower : List Char) : Misplaced → Option Bool
  | [] => some true
  | (letter, bad) :: rest =>
      match letter with
      | [c] =>
          if c.toNat < 97 then none
          else if wordMask &&& (1 <<< (c.toNat - 97)) ≠ 0 then
            if (∃ pos ∈ bad, 0 ≤ pos ∧ pos < (lower.length : Int) ∧
                  lower.get? pos.toNat = some c) then some false
            else misplacedCheck wordMask lower rest
          else some false
      | _ => none

/-- Steps 2-4 of `filter_word_with_mask` (after the length check):
excluded-letter mask, fixed-position pattern, misplaced letters. -/
def filterAfterLength (wd : WordEntry) (pattern : List Char)
    (not_allowed_mask : Nat) (misplaced_dict : Misplaced) : Option Bool :=
  if wd.mask &&& not_allowed_mask ≠ 0 then some false
  else
    match patternCheck (wd.word.map Char.toLower) pattern 0 with
    | none => none
    | some false => some false
    | some true => misplacedCheck wd.mask (wd.word.map Char.toLower) misplaced_dict

/-- `filter_word_with_mask`: `some b` when the Python function returns
`b`; `none` when it raises. -/
def filter_word_with_mask (wd : WordEntry) (word_length : Option Nat)
    (pattern : List Char) (not_allowed_mask : Nat) (misplaced_dict : Misplaced) :
    Option Bool :=
  match word_length with
  | some L =>
      if wd.word.length ≠ L then some false
      else filterAfterLength wd pattern not_allowed_mask misplaced_dict
  | none => filterAfterLength wd pattern not_allowed_mask misplaced_dict

/-- The list comprehension of `filter_words`: entries passing the filter
in corpus order; a raising entry aborts the whole call. -/
def filterEntries (wl : Option Nat) (pattern : List Char) (nam : Nat)
    (mp : Misplaced) : List WordEntry → Option (List WordEntry)
  | [] => some []
  | e :: rest =>
      match filter_word_with_mask e wl pattern nam mp with
      | none => none
      | some true => (filterEntries wl pattern nam mp rest).map (e :: ·)
      | some false => filterEntries wl pattern nam mp rest

/-- Stable descending insertion step: `x` goes before the first element
whose key is at most `key x` (it came later in the original list). -/
def insertDesc {α K : Type} [LinearOrder K] (key : α → K) (x : α) :
    List α → List α
  | [] => [x]
  | y :: ys =>
      if key x < key y then y :: insertDesc key x ys
      else x :: y :: ys

/-- `list.sort(key=..., reverse=True)`: stable sort by key, descending. -/
def sortDesc {α K : Type} [LinearOrder K] (key : α → K) : List α → List α
  | [] => []
  | x :: xs => insertDesc key x (sortDesc key xs)

/-- The engine-level bulk filter over a parsed constraint: apply the
per-word filter to every entry, project to `(word, frequency)` pairs,
sort by frequency descending (stable). -/
def filterAll (corpus : List WordEntry) (wl : Option Nat) (pattern : List Char)
    (nam : Nat) (mp : Misplaced) : Option (List (List Char × Int)) :=
  (filterEntries wl pattern nam mp corpus).map
    (fun es => sortDesc Prod.snd (es.map (fun e => (e.word, e.freq))))

/-- `filter_words` on a loaded corpus: compute the excluded-letter mask,
parse the misplaced input, filter and sort.  Either preprocessing step
can raise. -/
def filter_words (corpus : List WordEntry) (word_length : Option Nat)
    (pattern : List Char) (not_allowed : List Char) (misplaced_input : List Char) :
    Option (List (List Char × Int)) :=
  match get_word_mask not_allowed with
  | none => none
  | some nam =>
      match parse_misplaced_letters misplaced_input with
      | none => none
      | some mp => filterAll corpus word_length pattern nam mp

/-- Rebuild a corpus entry from a `(word, frequency)` result pair, as a
caller feeding results back into the filter would. -/
def rebuildEntry (x : List Char × Int) : WordEntry :=
  ⟨x.1, x.2, (get_word_mask x.1).getD 0⟩

/-- Distribution state: `overall` and `positional` weighted counts, both
total functions defaulting to 0 (`dict.get(k, 0)` semantics). -/
abbrev DistState := (Char → Int) × (Nat → Char → Int)

/-- `overall[ch] += freq; positional[i][ch] += freq`. -/
def distBump (d : DistState) (i : Nat) (c : Char) (f : Int) : DistState :=
  (fun ch => if ch = c then d.1 ch + f else d.1 ch,
   fun j ch => if j = i ∧ ch = c then d.2 j ch + f else d.2 j ch)

/-- The inner loop of `compute_letter_distributions` over one lowered
word from character index `i`.  `positional` was keyed only on
`range(len(results[0][0]))`, so an index at or beyond `len0` raises
`KeyError` (`none`). -/
def distWord (len0 : Nat) (f : Int) : List Char → Nat → DistState → Option DistState
  | [], _, d => some d
  | c :: rest, i, d =>
      if i < len0 then distWord len0 f rest (i + 1) (distBump d i c f)
      else none

/-- The outer loop of `compute_letter_distributions` over the result
set. -/
def distFold (len0 : Nat) : List (List Char × Int) → DistState → Option DistState
  | [], d => some d
  | (w, f) :: rest, d =>
      match distWord len0 f (w.map Char.toLower) 0 d with
      | none => none
      | some d2 => distFold len0 rest d2

/-- `compute_letter_distributions(results)`: empty input yields empty
distributions; otherwise the positional dict is sized from the first
word's length only and the weighted counts are accumulated. -/
def compute_letter_distributions : List (List Char × Int) → Option DistState
  | [] => some (fun _ => 0, fun _ _ => 0)
  | (w0, f0) :: rest =>
      distFold w0.length ((w0, f0) :: rest) (fun _ => 0, fun _ _ => 0)

/-- Coverage score of `filters.score_coverage`: sum of distribution
weights over the *distinct* letters of the lowered word (`set(word.lower())`;
set iteration order is immaterial since addition commutes). -/
def score_coverage (w : List Char) (overall : Char → Int) : Int :=
  (((w.map Char.toLower).dedup).map overall).sum

/-- Coverage score of `WordleSolver._score_coverage`: sum of
distribution weights over *all* letter occurrences of the lowered word
(`for ch in word.lower()`). -/
def score_coverage_solver (w : List Char) (overall : Char → Int) : Int :=
  ((w.map Char.toLower).map overall).sum

/-- `counter[c] -= 1` on an integer-valued counter. -/
def decCnt (cnt : Char → Int) (c : Char) : Char → Int :=
  fun x => if x = c then cnt c - 1 else cnt x

/-- Pass 1 of `get_feedback_pattern` over the zipped (guess, answer)
character pairs: mark `G` at exact matches and decrement the answer
counter. -/
def pass1 : List (Char × Char) → (Char → Int) → List Char × (Char → Int)
  | [], cnt => ([], cnt)
  | (gc, ac) :: rest, cnt =>
      if gc = ac then
        let r := pass1 rest (decCnt cnt gc)
        ('G' :: r.1, r.2)
      else
        let r := pass1 rest cnt
        ('B' :: r.1, r.2)

/-- Pass 2 over the zipped (guess, pass-1 pattern) pairs: a still-`B`
position whose guess letter has positive remaining count becomes `Y`
and decrements the counter. -/
def pass2 : List (Char × Char) → (Char → Int) → List Char
  | [], _ => []
  | (gc, pc) :: rest, cnt =>
      if pc = 'B' ∧ 0 < cnt gc then 'Y' :: pass2 rest (decCnt cnt gc)
      else pc :: pass2 rest cnt

/-- The two passes of `get_feedback_pattern` on lowered words.  The
counter starts as `Counter(answer)`.  Defined by zipping, which agrees
with the Python indexing loops whenever `len(guess) ≤ len(answer)`. -/
def feedbackCore (g a : List Char) : List Char :=
  let gl := g.map Char.toLower
  let al := a.map Char.toLower
  let r := pass1 (gl.zip al) (fun c => (al.count c : Int))
  pass2 (gl.zip r.1) r.2

/-- `get_feedback_pattern(guess, answer)`: pass 1 indexes the answer at
every guess index, so a guess longer than the answer raises `IndexError`
(`none`). -/
def get_feedback_pattern (g a : List Char) : Option (List Char) :=
  if g.length ≤ a.length then some (feedbackCore g a) else none

/-- Modelled from the spec (§4.5), for the refinement comparison of C1:
the canonical two-pass Wordle pattern with a natural-number multiset of
answer letters; exact matches consume supply first, then still-Absent
positions become Present left-to-right while supply remains. -/
def decCntN (cnt : Char → Nat) (c : Char) : Char → Nat :=
  fun x => if x = c then cnt c - 1 else cnt x

/-- Spec pass 1: mark Exact and consume supply. -/
def pass1N : List (Char × Char) → (Char → Nat) → List Char × (Char → Nat)
  | [], cnt => ([], cnt)
  | (gc, ac) :: rest, cnt =>
      if gc = ac then
        let r := pass1N rest (decCntN cnt gc)
        ('G' :: r.1, r.2)
      else
        let r := pass1N rest cnt
        ('B' :: r.1, r.2)

/-- Spec pass 2: left-to-right, mark Present while the multiset still
holds a positive count. -/
def pass2N : List (Char × Char) → (Char → Nat) → List Char
  | [], _ => []
  | (gc, pc) :: rest, cnt =>
      if pc = 'B' ∧ 0 < cnt gc then 'Y' :: pass2N rest (decCntN cnt gc)
      else pc :: pass2N rest cnt

/-- The canonical two-pass pattern of the spec (case-insensitive). -/
def canonicalFeedback (g a : List Char) : List Char :=
  let gl := g.map Char.toLower
  let al := a.map Char.toLower
  let r := pass1N (gl.zip al) (fun c => al.count c)
  pass2N (gl.zip r.1) r.2

/-- The feedback pattern an answer entry produces against the guess. -/
def feedbackKey (g : List Char) (x : List Char × Int) : List Char :=
  feedbackCore g x.1

/-- The keys of `pattern_cnt`: the distinct feedback patterns of the
pool against the guess. -/
def fbClasses (g : List Char) (pool : List (List Char × Int)) : Finset (List Char) :=
  (pool.map (feedbackKey g)).toFinset

/-- `pattern_cnt[pat]`: total frequency of the pool entries producing
pattern `pat` against the guess. -/
def classMass (g : List Char) (pool : List (List Char × Int)) (pat : List Char) : Int :=
  ((pool.filter (fun x => feedbackKey g x = pat)).map Prod.snd).sum

/-- `total_mass`: the summed frequency of the pool. -/
def poolMass (pool : List (List Char × Int)) : Int :=
  (pool.map Prod.snd).sum

/-- `score_weighted_entropy(guess, possible_words)`, over exact reals
(the Python float arithmetic is modelled exactly).  Zero total mass
returns 0 before any pattern is computed.  Otherwise the call raises
(`none`) when pass 1 indexes past a shorter answer, or when some
pattern's frequency share is not positive (`math.log2` domain error). -/
noncomputable def score_weighted_entropy (g : List Char)
    (pool : List (List Char × Int)) : Option ℝ :=
  if poolMass pool = 0 then some 0
  else if pool.all (fun x => g.length ≤ x.1.length) then
    if ∀ pat ∈ fbClasses g pool,
        0 < (classMass g pool pat : ℚ) / (poolMass pool : ℚ) then
      some (-(∑ pat in fbClasses g pool,
        ((classMass g pool pat : ℝ) / (poolMass pool : ℝ)) *
          Real.logb 2 ((classMass g pool pat : ℝ) / (poolMass pool : ℝ))))
    else none
  else none

/-- A list comprehension whose body can raise: build the results in
order, aborting on the first raising element. -/
def mapOption {α β : Type} (f : α → Option β) : List α → Option (List β)
  | [] => some []
  | a :: l =>
      match f a with
      | none => none
      | some b => (mapOption f l).map (b :: ·)

/-- `WordleSolver.best_guesses`: empty pool returns empty; a pool of at
most `cutoff` (or unset cutoff) is scored against itself by weighted
entropy; a larger pool is replaced by all corpus words of the right
length and minimum frequency, scored by the solver coverage heuristic.
Scores are stable-sorted descending and truncated to `top_n`. -/
noncomputable def best_guesses (word_data_list : List WordEntry)
    (possible_words : List (List Char × Int)) (overall : Char → Int)
    (cutoff : Option Nat) (top_n : Nat) (min_frequency : Int) :
    Option (List (List Char × ℝ)) :=
  match possible_words with
  | [] => some []
  | first :: _ =>
      if (match cutoff with
          | none => true
          | some c => possible_words.length ≤ c) then
        match mapOption
            (fun w => (score_weighted_entropy w possible_words).map (fun s => (w, s)))
            (possible_words.map Prod.fst) with
        | none => none
        | some scores => some ((sortDesc Prod.snd scores).take top_n)
      else
        some ((sortDesc Prod.snd
          (((word_data_list.filter (fun d =>
              d.word.length = first.1.length && min_frequency ≤ d.freq)).map
            (fun d => d.word)).map
            (fun w => (w, (score_coverage_solver w overall : ℝ))))).take top_n)

/-- Build a corpus entry the way the loader does, for well-formed
concrete words. -/
def mkEntry (w : List Char) (f : Int) : WordEntry :=
  ⟨w, f, (get_word_mask w).getD 0⟩

/-- The six-word scenario corpus of the spec (§8). -/
def sixWordCorpus : List WordEntry :=
  [mkEntry ['a','p','p','l','e'] 100,
   mkEntry ['b','a','k','e','r'] 90,
   mkEntry ['c','r','a','n','e'] 110,
   mkEntry ['d','r','a','p','e'] 80,
   mkEntry ['e','a','r','t','h'] 120,
   mkEntry ['r','e','a','c','t'] 130]

/-- The letter distribution of the repository's coverage unit test. -/
def testDistribution : Char → Int := fun c =>
  if c = 'e' then 50
  else if c = 'r' then 20
  else if c = 'a' then 15
  else if c = 't' then 10
  else if c = 'c' then 5
  else 0

/-- The `(word, frequency)` pairs of the corpus entries that pass the
filter, in corpus order (before sorting). -/
def passingPairs (corpus : List WordEntry) (wl : Option Nat) (pattern : List Char)
    (nam : Nat) (mp : Misplaced) : List (List Char × Int) :=
  (corpus.filter
    (fun e => filter_word_with_mask e wl pattern nam mp = some true)).map
    (fun e => (e.word, e.freq))

end WordleSolver

namespace WordleSolver

/-! ### Shared helper lemmas -/

theorem sum_map_dedup (l : List Char) (d : Char → Int) :
    ((l.dedup).map d).sum = ∑ c in l.toFinset, d c := by
  have h1 : l.dedup.toFinset = l.toFinset := by
    ext c
    simp [List.mem_toFinset, List.mem_dedup]
  rw [← h1]
  exact (List.sum_toFinset d (List.nodup_dedup l)).symm

theorem pySplit_ne_nil (sep : Char) (l : List Char) : pySplit sep l ≠ [] := by
  cases l with
  | nil => simp [pySplit]
  | cons c rest =>
      rcases hps : pySplit sep rest with _ | ⟨h, t⟩ <;>
        simp only [pySplit, hps] <;> split <;> simp

theorem pySplit_length (sep : Char) (l : List Char) :
    (pySplit sep l).length = l.count sep + 1 := by
  induction l with
  | nil => simp [pySplit]
  | cons c rest ih =>
      rcases hr : pySplit sep rest with _ | ⟨h, t⟩
      · exact absurd hr (pySplit_ne_nil sep rest)
      · have hlen : (h :: t).length = rest.count sep + 1 := hr ▸ ih
        by_cases hc : c = sep
        · subst hc
          simp only [pySplit, hr, ite_true, if_true, eq_self_iff_true,
            List.count_cons_self]
          simp only [List.length_cons] at hlen ⊢
          omega
        · simp only [pySplit, hr]
          rw [if_neg hc, List.count_cons_of_ne (fun hco => hc hco.symm)]
          simp only [List.length_cons] at hlen ⊢
          omega

theorem length_eq_two {α : Type} {l : List α} (h : l.length = 2) :
    ∃ a b, l = [a, b] := by
  match l, h with
  | [a, b], _ => exact ⟨a, b, rfl⟩

theorem parseMisplacedEntry_isSome (m : Misplaced) (e : List Char)
    (h : e.count ':' ≤ 1) : (parseMisplacedEntry m e).isSome := by
  rw [parseMisplacedEntry]
  by_cases hc : e.contains ':' = true
  · rw [if_pos hc]
    have hmem : (':' : Char) ∈ e := by simpa using hc
    have hpos : 0 < e.count ':' := List.count_pos_iff.mpr hmem
    have hone : e.count ':' = 1 := Nat.le_antisymm h hpos
    have hlen : (pySplit ':' e).length = 2 := by
      rw [pySplit_length, hone]
    obtain ⟨a, b, hab⟩ := length_eq_two hlen
    rw [hab]
    rfl
  · rw [if_neg hc]
    rfl

theorem parseMisplacedAux_isSome (entries : List (List Char)) (m : Misplaced)
    (h : ∀ e ∈ entries, e.count ':' ≤ 1) :
    (parseMisplacedAux entries m).isSome := by
  induction entries generalizing m with
  | nil => rfl
  | cons e rest ih =>
      rw [parseMisplacedAux]
      rcases he : parseMisplacedEntry m e with _ | m2
      · have := parseMisplacedEntry_isSome m e (h e (List.mem_cons_self e rest))
        rw [he] at this
        exact absurd this (by simp)
      · exact ih m2 (fun x hx => h x (List.mem_cons_of_mem e hx))

/-! ### C2 — coverage score -/

/-- C2 counterexample: the solver-variant coverage score
(`WordleSolver._score_coverage`) sums over all letter occurrences, so on
the repository's own unit-test input `eerie` it returns 170, not the
distinct-letter sum 70 — the claimed repetition invariance fails on this
variant. -/
theorem solver_coverage_counts_repeats :
    score_coverage_solver ['e','e','r','i','e'] testDistribution = 170 ∧
    (∑ c in ((['e','e','r','i','e'] : List Char).map Char.toLower).toFinset,
        testDistribution c) = 70 ∧
    score_coverage_solver ['e','e','r','i','e'] testDistribution ≠
      ∑ c in ((['e','e','r','i','e'] : List Char).map Char.toLower).toFinset,
        testDistribution c := by
  refine ⟨by decide, by decide, by decide⟩

/-- C2 (amended): the `filters.score_coverage` variant equals the sum of
the distribution's weight over the word's distinct lowered letters, and
is therefore invariant under repeating a letter beyond its first
occurrence; the solver variant sums over all occurrences instead. -/
theorem coverage_distinct_letters_filters (w w2 : List Char) (d : Char → Int)
    (h : (w.map Char.toLower).toFinset = (w2.map Char.toLower).toFinset) :
    score_coverage w d = ∑ c in (w.map Char.toLower).toFinset, d c ∧
    score_coverage w d = score_coverage w2 d := by
  constructor
  · exact sum_map_dedup _ d
  · rw [score_coverage, score_coverage, sum_map_dedup, sum_map_dedup, h]

/-- C2 witness: `eerie` and `erie` have the same letter set, hence the
same filters-variant coverage score. -/
theorem coverage_distinct_letters_witness :
    score_coverage ['e','e','r','i','e'] testDistribution =
      score_coverage ['e','r','i','e'] testDistribution :=
  (coverage_distinct_letters_filters ['e','e','r','i','e'] ['e','r','i','e']
    testDistribution (by decide)).2

/-! ### C3 — misplaced-letter parser -/

/-- C3 counterexample: an entry with two colons makes
`letter_part, pos_part = entry.split(":")` raise `ValueError`, so the
parser does not return a mapping on every input. -/
theorem parse_misplaced_two_colon_raises :
    parse_misplaced_letters ['a', ':', '1', ':', '2'] = none := by decide

/-- C3 (amended): on every input string whose semicolon-separated
entries each contain at most one colon, the parser returns a mapping:
empty or whitespace-only input yields the empty mapping, entries lacking
a colon are ignored, non-numeric position tokens are ignored, and
repeated letters have their position sets unioned (an entry with two or
more colons instead raises). -/
theorem parse_misplaced_permissive_amended (s : List Char)
    (h : ∀ e ∈ pySplit ';' s, e.count ':' ≤ 1) :
    (parse_misplaced_letters s).isSome ∧
    (pyStrip s = [] → parse_misplaced_letters s = some []) ∧
    parse_misplaced_letters ['b', ';', 'a', ':', '1'] =
      some [(['a'], ({0} : Finset Int))] ∧
    parse_misplaced_letters ['a', ':', '1', ',', 'f', 'o', 'o', ',', '3'] =
      some [(['a'], ({0, 2} : Finset Int))] ∧
    parse_misplaced_letters ['a', ':', '1', ';', 'a', ':', '3'] =
      some [(['a'], ({0, 2} : Finset Int))] := by
  refine ⟨?_, ?_, by decide, by decide, by decide⟩
  · rw [parse_misplaced_letters]
    by_cases hs : pyStrip s = []
    · rw [if_pos hs]
      rfl
    · rw [if_neg hs]
      exact parseMisplacedAux_isSome _ [] h
  · intro hs
    rw [parse_misplaced_letters, if_pos hs]

/-- C3 witness: the amended parser totality applied to a concrete
well-formed input. -/
theorem parse_misplaced_permissive_witness :
    (parse_misplaced_letters ['a', ':', '1']).isSome :=
  (parse_misplaced_permissive_amended ['a', ':', '1'] (by decide)).1

end WordleSolver

namespace WordleSolver

/-! ### C4 — corpus loader -/

theorem maskAux_isSome (l : List Char) : ∀ acc : Nat,
    (∀ c ∈ l, 97 ≤ c.toNat) → (maskAux acc l).isSome := by
  induction l with
  | nil => intro acc _; rfl
  | cons c rest ih =>
      intro acc h
      rw [maskAux]
      rw [if_neg (by
        have := h c (List.mem_cons_self c rest)
        omega)]
      exact ih _ (fun x hx => h x (List.mem_cons_of_mem c hx))

theorem get_word_mask_isSome (w : List Char)
    (h : ∀ c ∈ w, 97 ≤ c.toLower.toNat) : (get_word_mask w).isSome := by
  rw [get_word_mask]
  refine maskAux_isSome _ 0 ?_
  intro c hc
  obtain ⟨x, hx, rfl⟩ := List.mem_map.mp hc
  exact h x hx

theorem loadLine_not_wf (line : List Char) (h : wellFormedLine line = false) :
    loadLine line = some none := by
  rcases hsp : pySplit ',' (pyStrip line) with _ | ⟨a, _ | ⟨b, _ | ⟨c3, t⟩⟩⟩ <;>
    simp only [loadLine, wellFormedLine, hsp] at h ⊢ <;> try rfl
  rcases hint : pyInt (pyStrip b) with _ | v
  · rfl
  · rw [hint] at h
    simp at h

theorem loadLine_wf_ok (line : List Char) (hwf : wellFormedLine line = true)
    (h : ∀ c ∈ wordField line, 97 ≤ c.toLower.toNat) :
    ∃ e, loadLine line = some (some e) ∧ e.word = wordField line ∧
      pyInt (freqField line) = some e.freq ∧ get_word_mask e.word = some e.mask := by
  rcases hsp : pySplit ',' (pyStrip line) with _ | ⟨a, _ | ⟨b, _ | ⟨c3, t⟩⟩⟩ <;>
    simp only [loadLine, wellFormedLine, wordField, freqField, hsp] at hwf h ⊢ <;>
    try exact absurd hwf Bool.false_ne_true
  rcases hint : pyInt (pyStrip b) with _ | v
  · rw [hint] at hwf
    simp at hwf
  · have hms : (get_word_mask (pyStrip a)).isSome := get_word_mask_isSome _ h
    rcases hmask : get_word_mask (pyStrip a) with _ | m
    · rw [hmask] at hms
      exact absurd hms (by simp)
    · exact ⟨⟨pyStrip a, v, m⟩, rfl, rfl, rfl, hmask⟩

theorem lineEntry_of_loadLine_skip {line : List Char}
    (h : loadLine line = some none) : lineEntry line = none := by
  rw [lineEntry, h]

theorem lineEntry_of_loadLine_entry {line : List Char} {e : WordEntry}
    (h : loadLine line = some (some e)) : lineEntry line = some e := by
  rw [lineEntry, h]

/-- C4 counterexample: the line `a b,5` has exactly two comma-separated
fields and an integer frequency field, yet the whole load raises: the
space in the word makes `1 << (ord(' ') - ord('a'))` a negative shift.
So the load does not produce entries for exactly the well-formed lines. -/
theorem loader_crashes_on_nonletter_word :
    wellFormedLine ['a', ' ', 'b', ',', '5'] = true ∧
    load_word_list [['a', ' ', 'b', ',', '5']] = none := by
  refine ⟨by decide, by decide⟩

/-- C4 (amended): lines without exactly two comma-separated fields or
without an integer frequency field are silently skipped, never fatal;
provided every well-formed line's word field contains only characters
whose lowercase code point is at least that of `'a'`, the load succeeds
and produces an entry (stripped word, parsed frequency, letter-set
bitmask) for exactly the well-formed lines, in order; a well-formed line
violating that proviso aborts the whole load in the bitmask shift. -/
theorem loader_skips_malformed_amended (lines : List (List Char))
    (h : ∀ line ∈ lines, wellFormedLine line = true →
      ∀ c ∈ wordField line, 97 ≤ c.toLower.toNat) :
    load_word_list lines = some (lines.filterMap lineEntry) ∧
    (∀ line, wellFormedLine line = false → lineEntry line = none) ∧
    (∀ line ∈ lines, wellFormedLine line = true →
      ∃ e, lineEntry line = some e ∧ e.word = wordField line ∧
        pyInt (freqField line) = some e.freq ∧
        get_word_mask e.word = some e.mask) := by
  refine ⟨?_, ?_, ?_⟩
  · induction lines with
    | nil => rfl
    | cons l rest ih =>
        have hrest := ih (fun x hx => h x (List.mem_cons_of_mem l hx))
        rcases hwf : wellFormedLine l with _ | _
        · have hskip := loadLine_not_wf l hwf
          rw [load_word_list, hskip, List.filterMap_cons,
            lineEntry_of_loadLine_skip hskip]
          exact hrest
        · obtain ⟨e, he, _, _, _⟩ :=
            loadLine_wf_ok l hwf (h l (List.mem_cons_self l rest) hwf)
          rw [load_word_list, he, List.filterMap_cons,
            lineEntry_of_loadLine_entry he, hrest]
          rfl
  · intro line hline
    exact lineEntry_of_loadLine_skip (loadLine_not_wf line hline)
  · intro line hline hwf
    obtain ⟨e, he, h1, h2, h3⟩ := loadLine_wf_ok line hwf (h line hline hwf)
    exact ⟨e, lineEntry_of_loadLine_entry he, h1, h2, h3⟩

/-- C4 witness: the amended loader theorem applied to a concrete
two-line content with one well-formed and one malformed line. -/
theorem loader_skips_malformed_witness :
    load_word_list [['a', ',', '5'], ['b', 'a', 'd']] =
      some ([['a', ',', '5'], ['b', 'a', 'd']].filterMap lineEntry) :=
  (loader_skips_malformed_amended [['a', ',', '5'], ['b', 'a', 'd']] (by decide)).1

end WordleSolver

namespace WordleSolver

/-! ### Stable descending sort lemmas -/

theorem insertDesc_perm {α K : Type} [LinearOrder K] (key : α → K) (x : α)
    (l : List α) : (insertDesc key x l).Perm (x :: l) := by
  induction l with
  | nil => exact List.Perm.refl _
  | cons y ys ih =>
      rw [insertDesc]
      by_cases hc : key x < key y
      · rw [if_pos hc]
        exact (ih.cons y).trans (List.Perm.swap x y ys)
      · rw [if_neg hc]

theorem sortDesc_perm {α K : Type} [LinearOrder K] (key : α → K)
    (l : List α) : (sortDesc key l).Perm l := by
  induction l with
  | nil => exact List.Perm.refl _
  | cons x xs ih =>
      rw [sortDesc]
      exact (insertDesc_perm key x (sortDesc key xs)).trans (ih.cons x)

theorem insertDesc_sorted {α K : Type} [LinearOrder K] (key : α → K) (x : α)
    (l : List α) (hl : l.Pairwise (fun a b => key b ≤ key a)) :
    (insertDesc key x l).Pairwise (fun a b => key b ≤ key a) := by
  induction l with
  | nil => simp [insertDesc]
  | cons y ys ih =>
      rw [insertDesc]
      rcases List.pairwise_cons.mp hl with ⟨hy, hys⟩
      by_cases hc : key x < key y
      · rw [if_pos hc]
        refine List.pairwise_cons.mpr ⟨?_, ih hys⟩
        intro z hz
        rcases List.mem_cons.mp ((insertDesc_perm key x ys).mem_iff.mp hz) with
          hzx | hzm
        · rw [hzx]
          exact le_of_lt hc
        · exact hy z hzm
      · rw [if_neg hc]
        have hyx : key y ≤ key x := le_of_not_lt hc
        refine List.pairwise_cons.mpr ⟨?_, hl⟩
        intro z hz
        rcases List.mem_cons.mp hz with rfl | hzm
        · exact hyx
        · exact (hy z hzm).trans hyx

theorem sortDesc_sorted {α K : Type} [LinearOrder K] (key : α → K)
    (l : List α) : (sortDesc key l).Pairwise (fun a b => key b ≤ key a) := by
  induction l with
  | nil => exact List.Pairwise.nil
  | cons x xs ih =>
      rw [sortDesc]
      exact insertDesc_sorted key x (sortDesc key xs) ih

theorem insertDesc_filter_eq {α K : Type} [LinearOrder K] (key : α → K) (x : α)
    (l : List α) (k : K) :
    (insertDesc key x l).filter (fun a => key a = k) =
      if key x = k then x :: l.filter (fun a => key a = k)
      else l.filter (fun a => key a = k) := by
  induction l with
  | nil => simp [insertDesc, List.filter_cons]
  | cons y ys ih =>
      rw [insertDesc]
      by_cases hc : key x < key y
      · rw [if_pos hc]
        by_cases hyk : key y = k
        · have hxk : key x ≠ k := by
            intro hxe
            rw [hxe, ← hyk] at hc
            exact lt_irrefl _ hc
          simp [List.filter_cons, hxk, hyk, ih]
        · simp [List.filter_cons, hyk, ih]
      · rw [if_neg hc]
        simp [List.filter_cons]

theorem sortDesc_filter_eq {α K : Type} [LinearOrder K] (key : α → K)
    (l : List α) (k : K) :
    (sortDesc key l).filter (fun a => key a = k) =
      l.filter (fun a => key a = k) := by
  induction l with
  | nil => rfl
  | cons x xs ih =>
      rw [sortDesc, insertDesc_filter_eq, List.filter_cons]
      by_cases hxk : key x = k
      · rw [if_pos hxk, ih]
        simp [hxk]
      · rw [if_neg hxk, ih]
        simp [hxk]

theorem sortDesc_of_sorted {α K : Type} [LinearOrder K] (key : α → K)
    (l : List α) (hl : l.Pairwise (fun a b => key b ≤ key a)) :
    sortDesc key l = l := by
  induction l with
  | nil => rfl
  | cons x xs ih =>
      rcases List.pairwise_cons.mp hl with ⟨hx, hxs⟩
      rw [sortDesc, ih hxs]
      cases xs with
      | nil => rfl
      | cons y ys =>
          rw [insertDesc,
            if_neg (not_lt.mpr (hx y (List.mem_cons_self y ys)))]

end WordleSolver

namespace WordleSolver

/-! ### Filter totality lemmas -/

theorem patternCheck_isSome (lower : List Char) (pattern : List Char) :
    ∀ i : Nat, i + pattern.length ≤ lower.length →
      (patternCheck lower pattern i).isSome := by
  induction pattern with
  | nil => intro i _; rfl
  | cons p rest ih =>
      intro i h
      rw [patternCheck]
      have hlen : i + rest.length + 1 ≤ lower.length := by
        simp only [List.length_cons] at h
        omega
      by_cases hp : p = '_'
      · rw [if_pos hp]
        exact ih (i + 1) (by omega)
      · rw [if_neg hp]
        have hi : i < lower.length := by omega
        rcases hg : lower.get? i with _ | c
        · rw [List.get?_eq_none] at hg
          omega
        · show (if c ≠ p.toLower then some false
              else patternCheck lower rest (i + 1)).isSome = true
          by_cases hcp : c ≠ p.toLower
          · rw [if_pos hcp]
            rfl
          · rw [if_neg hcp]
            exact ih (i + 1) (by omega)

theorem misplacedCheck_isSome (wordMask : Nat) (lower : List Char)
    (mp : Misplaced)
    (hk : ∀ kv ∈ mp, ∃ c, kv.1 = [c] ∧ 97 ≤ c.toNat) :
    (misplacedCheck wordMask lower mp).isSome := by
  induction mp with
  | nil => rfl
  | cons kv rest ih =>
      obtain ⟨c, hk1, hc⟩ := hk kv (List.mem_cons_self kv rest)
      rcases kv with ⟨letter, bad⟩
      simp only at hk1
      subst hk1
      simp only [misplacedCheck]
      rw [if_neg (not_lt.mpr hc)]
      by_cases hm : wordMask &&& (1 <<< (c.toNat - 97)) ≠ 0
      · rw [if_pos hm]
        by_cases hhit : ∃ pos ∈ bad, 0 ≤ pos ∧ pos < (lower.length : Int) ∧
            lower.get? pos.toNat = some c
        · rw [if_pos hhit]
          rfl
        · rw [if_neg hhit]
          exact ih (fun x hx => hk x (List.mem_cons_of_mem _ hx))
      · rw [if_neg hm]
        rfl

theorem filter_word_with_mask_isSome (wd : WordEntry) (L : Nat)
    (pattern : List Char) (nam : Nat) (mp : Misplaced)
    (hp : pattern.length ≤ L)
    (hk : ∀ kv ∈ mp, ∃ c, kv.1 = [c] ∧ 97 ≤ c.toNat) :
    (filter_word_with_mask wd (some L) pattern nam mp).isSome := by
  rw [filter_word_with_mask]
  by_cases hlen : wd.word.length ≠ L
  · rw [if_pos hlen]
    rfl
  · rw [if_neg hlen]
    push_neg at hlen
    rw [filterAfterLength]
    by_cases hmask : wd.mask &&& nam ≠ 0
    · rw [if_pos hmask]
      rfl
    · rw [if_neg hmask]
      have hpc : (patternCheck (wd.word.map Char.toLower) pattern 0).isSome := by
        refine patternCheck_isSome _ _ 0 ?_
        rw [List.length_map, hlen]
        omega
      rcases hres : patternCheck (wd.word.map Char.toLower) pattern 0 with _ | b
      · rw [hres] at hpc
        exact absurd hpc (by simp)
      · cases b
        · rfl
        · exact misplacedCheck_isSome wd.mask (wd.word.map Char.toLower) mp hk

theorem filterEntries_eq (wl : Option Nat) (pattern : List Char) (nam : Nat)
    (mp : Misplaced) (corpus : List WordEntry)
    (h : ∀ e ∈ corpus, (filter_word_with_mask e wl pattern nam mp).isSome) :
    filterEntries wl pattern nam mp corpus =
      some (corpus.filter
        (fun e => filter_word_with_mask e wl pattern nam mp = some true)) := by
  induction corpus with
  | nil => rfl
  | cons e rest ih =>
      have hrest := ih (fun x hx => h x (List.mem_cons_of_mem e hx))
      rw [filterEntries, List.filter_cons]
      rcases hres : filter_word_with_mask e wl pattern nam mp with _ | b
      · have : (filter_word_with_mask e wl pattern nam mp).isSome :=
          h e (List.mem_cons_self e rest)
        rw [hres] at this
        exact absurd this (by simp)
      · cases b
        · rw [if_neg (by simp [hres])]
          exact hrest
        · rw [if_pos (by simp [hres]), hrest]
          rfl

end WordleSolver

namespace WordleSolver

/-! ### C9 — unguarded pattern indexing -/

/-- C9: when the length constraint is set and the pattern is no longer
than it, the per-word filter never raises (entries of another length are
rejected before the pattern loop indexes them, and guarded position
checks cannot raise); when the length constraint is unset, the
unguarded indexing is reachable: on the one-word corpus `a` with pattern
`ab`, filtering raises `IndexError` instead of rejecting the word. -/
theorem filter_pattern_bounds :
    (∀ (wd : WordEntry) (L : Nat) (pattern : List Char) (nam : Nat)
        (mp : Misplaced), pattern.length ≤ L →
      (∀ kv ∈ mp, ∃ c, kv.1 = [c] ∧ 97 ≤ c.toNat) →
      (filter_word_with_mask wd (some L) pattern nam mp).isSome) ∧
    filter_word_with_mask (mkEntry ['a'] 1) none ['a', 'b'] 0 [] = none ∧
    filter_words [mkEntry ['a'] 1] none ['a', 'b'] [] [] = none := by
  refine ⟨?_, by decide, by decide⟩
  intro wd L pattern nam mp hp hk
  exact filter_word_with_mask_isSome wd L pattern nam mp hp hk

/-- C9 witness: the totality half applied at a concrete entry and
constraint. -/
theorem filter_pattern_bounds_witness :
    (filter_word_with_mask (mkEntry ['a', 'b'] 1) (some 2) ['a', '_'] 0
      []).isSome :=
  filter_pattern_bounds.1 (mkEntry ['a', 'b'] 1) 2 ['a', '_'] 0 []
    (by decide) (fun kv hkv => absurd hkv (List.not_mem_nil kv))

/-! ### C7 — bulk filter: exactness, order, stability -/

/-- C7: over the spec's Constraint shape (length set, pattern no longer
than the length, misplaced keys single letters at or above `'a'`), the
bulk filter returns exactly the `(word, frequency)` pairs of the passing
entries — a permutation of them, sorted by frequency descending, and
stable: for every frequency the subsequence with that frequency equals
the corpus-order subsequence.  On the six-word scenario corpus with
letter `c` excluded, the result is earth, apple, baker, drape in that
order. -/
theorem filter_words_sorted_exact (corpus : List WordEntry) (L : Nat)
    (pattern : List Char) (nam : Nat) (mp : Misplaced)
    (hp : pattern.length ≤ L)
    (hk : ∀ kv ∈ mp, ∃ c, kv.1 = [c] ∧ 97 ≤ c.toNat) :
    (∃ r, filterAll corpus (some L) pattern nam mp = some r ∧
      r.Perm (passingPairs corpus (some L) pattern nam mp) ∧
      r.Pairwise (fun a b => b.2 ≤ a.2) ∧
      ∀ k : Int, r.filter (fun a => a.2 = k) =
        (passingPairs corpus (some L) pattern nam mp).filter
          (fun a => a.2 = k)) ∧
    filter_words sixWordCorpus (some 5) ['_','_','_','_','_'] ['c'] [] =
      some [(['e','a','r','t','h'], 120), (['a','p','p','l','e'], 100),
            (['b','a','k','e','r'], 90), (['d','r','a','p','e'], 80)] := by
  refine ⟨?_, by decide⟩
  have htot : ∀ e ∈ corpus,
      (filter_word_with_mask e (some L) pattern nam mp).isSome :=
    fun e _ => filter_word_with_mask_isSome e L pattern nam mp hp hk
  refine ⟨sortDesc Prod.snd (passingPairs corpus (some L) pattern nam mp), ?_,
    sortDesc_perm _ _, sortDesc_sorted _ _, fun k => sortDesc_filter_eq _ _ k⟩
  rw [filterAll, filterEntries_eq _ _ _ _ _ htot]
  rfl

/-- C7 witness: the general half applied at a concrete corpus and
constraint. -/
theorem filter_words_sorted_exact_witness :
    ∃ r, filterAll [mkEntry ['a'] 1] (some 1) [] 0 [] = some r ∧
      r.Perm (passingPairs [mkEntry ['a'] 1] (some 1) [] 0 []) ∧
      r.Pairwise (fun a b => b.2 ≤ a.2) ∧
      ∀ k : Int, r.filter (fun a => a.2 = k) =
        (passingPairs [mkEntry ['a'] 1] (some 1) [] 0 []).filter
          (fun a => a.2 = k) :=
  (filter_words_sorted_exact [mkEntry ['a'] 1] 1 [] 0 [] (by decide)
    (fun kv hkv => absurd hkv (List.not_mem_nil kv))).1

/-! ### C8 — idempotence of the bulk filter -/

/-- C8: every pair in the bulk filter's output comes from a passing
corpus entry, and re-filtering the output (rebuilt into entries the way
the loader builds them) with the same constraint returns the same
ordered list.  Hypotheses: the spec's Constraint shape and the corpus
invariant that each stored mask is the mask of its word. -/
theorem filterAll_idempotent (corpus : List WordEntry) (L : Nat)
    (pattern : List Char) (nam : Nat) (mp : Misplaced)
    (r : List (List Char × Int))
    (hp : pattern.length ≤ L)
    (hk : ∀ kv ∈ mp, ∃ c, kv.1 = [c] ∧ 97 ≤ c.toNat)
    (hwf : ∀ e ∈ corpus, get_word_mask e.word = some e.mask)
    (hr : filterAll corpus (some L) pattern nam mp = some r) :
    (∀ x ∈ r, ∃ e ∈ corpus, (e.word, e.freq) = x ∧
      filter_word_with_mask e (some L) pattern nam mp = some true) ∧
    filterAll (r.map rebuildEntry) (some L) pattern nam mp = some r := by
  have htot : ∀ e ∈ corpus,
      (filter_word_with_mask e (some L) pattern nam mp).isSome :=
    fun e _ => filter_word_with_mask_isSome e L pattern nam mp hp hk
  rw [filterAll, filterEntries_eq _ _ _ _ _ htot] at hr
  have hrEq : r = sortDesc Prod.snd
      (passingPairs corpus (some L) pattern nam mp) :=
    (Option.some.inj hr).symm
  have hmem : ∀ x ∈ r, ∃ e ∈ corpus, (e.word, e.freq) = x ∧
      filter_word_with_mask e (some L) pattern nam mp = some true := by
    intro x hx
    rw [hrEq] at hx
    have hx2 : x ∈ passingPairs corpus (some L) pattern nam mp :=
      (sortDesc_perm _ _).mem_iff.mp hx
    obtain ⟨e, he, hex⟩ := List.mem_map.mp hx2
    have hef := List.mem_filter.mp he
    exact ⟨e, hef.1, hex, by simpa using hef.2⟩
  refine ⟨hmem, ?_⟩
  have hreb : ∀ x ∈ r, rebuildEntry x ∈ corpus ∧
      filter_word_with_mask (rebuildEntry x) (some L) pattern nam mp =
        some true := by
    intro x hx
    obtain ⟨e, he, hex, hpass⟩ := hmem x hx
    have hre : rebuildEntry x = e := by
      rw [← hex, rebuildEntry]
      have hm := hwf e he
      simp only
      rw [hm]
      rfl
    rw [hre]
    exact ⟨he, hpass⟩
  have htot2 : ∀ e2 ∈ r.map rebuildEntry,
      (filter_word_with_mask e2 (some L) pattern nam mp).isSome := by
    intro e2 he2
    obtain ⟨x, hx, rfl⟩ := List.mem_map.mp he2
    rw [(hreb x hx).2]
    rfl
  rw [filterAll, filterEntries_eq _ _ _ _ _ htot2]
  have hfilter : (r.map rebuildEntry).filter
      (fun e2 => filter_word_with_mask e2 (some L) pattern nam mp =
        some true) = r.map rebuildEntry := by
    apply List.filter_eq_self.mpr
    intro e2 he2
    obtain ⟨x, hx, rfl⟩ := List.mem_map.mp he2
    simpa using (hreb x hx).2
  rw [hfilter]
  have hmap : (r.map rebuildEntry).map (fun e => (e.word, e.freq)) = r := by
    rw [List.map_map]
    have hid : ((fun e : WordEntry => (e.word, e.freq)) ∘ rebuildEntry) =
        (id : List Char × Int → List Char × Int) := by
      funext x
      rfl
    rw [hid, List.map_id]
  simp only [Option.map_some']
  rw [hmap, hrEq, sortDesc_of_sorted Prod.snd _ (sortDesc_sorted _ _)]

/-- C8 witness: idempotence at a concrete corpus and constraint. -/
theorem filterAll_idempotent_witness :
    filterAll ([(['a'], (1 : Int))].map rebuildEntry) (some 1) [] 0 [] =
      some [(['a'], (1 : Int))] :=
  (filterAll_idempotent [mkEntry ['a'] 1] 1 [] 0 [] [(['a'], 1)]
    (by decide) (fun kv hkv => absurd hkv (List.not_mem_nil kv)) (by decide)
    (by decide)).2

end WordleSolver

namespace WordleSolver

/-! ### C10 — distribution aggregator -/

theorem distWord_spec (len0 : Nat) (f : Int) :
    ∀ (s : List Char) (i : Nat) (d : DistState), i + s.length ≤ len0 →
      ∃ d2, distWord len0 f s i d = some d2 ∧
        (∀ ch, d2.1 ch = d.1 ch + f * (s.count ch : Int)) ∧
        (∀ j ch, d2.2 j ch = d.2 j ch +
          (if i ≤ j ∧ s.get? (j - i) = some ch then f else 0)) := by
  intro s
  induction s with
  | nil =>
      intro i d _
      refine ⟨d, rfl, by simp, ?_⟩
      intro j ch
      rw [if_neg (fun hcon => by simp at hcon)]
      ring
  | cons c s2 ih =>
      intro i d h
      have hlen : i + s2.length + 1 ≤ len0 := by
        simp only [List.length_cons] at h
        omega
      rw [distWord, if_pos (by omega)]
      obtain ⟨d2, hd2, ho, hp⟩ := ih (i + 1) (distBump d i c f) (by omega)
      refine ⟨d2, hd2, ?_, ?_⟩
      · intro ch
        rw [ho ch]
        show (if ch = c then d.1 ch + f else d.1 ch) + f * (s2.count ch : Int) =
          d.1 ch + f * ((c :: s2).count ch : Int)
        by_cases hcc : ch = c
        · subst hcc
          rw [if_pos rfl, List.count_cons_self]
          push_cast
          ring
        · rw [if_neg hcc, List.count_cons_of_ne hcc]
      · intro j ch
        rw [hp j ch]
        show (if j = i ∧ ch = c then d.2 j ch + f else d.2 j ch) +
            (if i + 1 ≤ j ∧ s2.get? (j - (i + 1)) = some ch then f else 0) =
          d.2 j ch + (if i ≤ j ∧ (c :: s2).get? (j - i) = some ch then f else 0)
        rcases Nat.lt_trichotomy j i with hji | hji | hji
        · rw [if_neg (fun hcon => by omega),
            if_neg (fun hcon : i + 1 ≤ j ∧ _ => by omega),
            if_neg (fun hcon : i ≤ j ∧ _ => by omega)]
        · subst hji
          rw [if_neg (fun hcon : j + 1 ≤ j ∧ _ => by omega),
            Nat.sub_self, List.get?_cons_zero]
          by_cases hcc : ch = c
          · rw [if_pos ⟨rfl, hcc⟩, if_pos ⟨le_refl j, by rw [hcc]⟩]
            ring
          · rw [if_neg (fun hcon => hcc hcon.2),
              if_neg (fun hcon => hcc (Option.some.inj hcon.2).symm)]
        · rw [if_neg (fun hcon => by omega)]
          have harith : j - i = (j - (i + 1)) + 1 := by omega
          rw [harith, List.get?_cons_succ]
          have hle1 : i + 1 ≤ j := by omega
          have hle : i ≤ j := by omega
          by_cases hX : s2.get? (j - (i + 1)) = some ch
          · rw [if_pos ⟨hle1, hX⟩, if_pos ⟨hle, hX⟩]
          · rw [if_neg (fun hcon => hX hcon.2), if_neg (fun hcon => hX hcon.2)]

theorem distFold_spec (len0 : Nat) :
    ∀ (results : List (List Char × Int)) (d : DistState),
      (∀ x ∈ results, x.1.length ≤ len0) →
      ∃ d2, distFold len0 results d = some d2 ∧
        (∀ ch, d2.1 ch = d.1 ch + (results.map
          (fun x => x.2 * ((x.1.map Char.toLower).count ch : Int))).sum) ∧
        (∀ j ch, d2.2 j ch = d.2 j ch + ((results.filter
          (fun x => (x.1.map Char.toLower).get? j = some ch)).map
            Prod.snd).sum) := by
  intro results
  induction results with
  | nil =>
      intro d _
      exact ⟨d, rfl, by simp, by simp⟩
  | cons x rest ih =>
      intro d h
      rcases x with ⟨w, f⟩
      have hwlen : (w.map Char.toLower).length ≤ len0 := by
        rw [List.length_map]
        exact h (w, f) (List.mem_cons_self _ rest)
      obtain ⟨d1, hw, ho1, hp1⟩ :=
        distWord_spec len0 f (w.map Char.toLower) 0 d (by omega)
      obtain ⟨d2, hrest, ho2, hp2⟩ :=
        ih d1 (fun y hy => h y (List.mem_cons_of_mem _ hy))
      refine ⟨d2, ?_, ?_, ?_⟩
      · rw [distFold, hw]
        exact hrest
      · intro ch
        rw [ho2 ch, ho1 ch]
        simp only [List.map_cons, List.sum_cons]
        ring
      · intro j ch
        rw [hp2 j ch, hp1 j ch]
        by_cases hX : (w.map Char.toLower).get? j = some ch
        · rw [List.filter_cons_of_pos (by simpa using hX)]
          simp only [List.map_cons, List.sum_cons]
          rw [if_pos ⟨Nat.zero_le j, by simpa using hX⟩]
          ring
        · rw [List.filter_cons_of_neg (by simpa using hX),
            if_neg (fun hcon => hX (by simpa using hcon.2))]
          ring

theorem distWord_crash (len0 : Nat) (f : Int) :
    ∀ (s : List Char) (i : Nat) (d : DistState),
      len0 < i + s.length → i ≤ len0 → distWord len0 f s i d = none := by
  intro s
  induction s with
  | nil =>
      intro i d h1 h2
      exact absurd h1 (by simp; omega)
  | cons c s2 ih =>
      intro i d h1 h2
      rw [distWord]
      by_cases hi : i < len0
      · rw [if_pos hi]
        refine ih (i + 1) _ ?_ (by omega)
        simp only [List.length_cons] at h1
        omega
      · rw [if_neg hi]

theorem distFold_crash (len0 : Nat) :
    ∀ (results : List (List Char × Int)) (d : DistState),
      (∃ x ∈ results, len0 < x.1.length) → distFold len0 results d = none := by
  intro results
  induction results with
  | nil =>
      intro d hex
      obtain ⟨y, hy, _⟩ := hex
      exact absurd hy (List.not_mem_nil y)
  | cons x rest ih =>
      intro d hex
      rcases x with ⟨w, f⟩
      obtain ⟨y, hy, hlen⟩ := hex
      rcases List.mem_cons.mp hy with rfl | hyr
      · rw [distFold,
          distWord_crash len0 f (w.map Char.toLower) 0 d
            (by simp only [List.length_map, Nat.zero_add]; exact hlen)
            (Nat.zero_le len0)]
      · rcases hword : distWord len0 f (w.map Char.toLower) 0 d with _ | d1
        · rw [distFold, hword]
        · rw [distFold, hword]
          exact ih d1 ⟨y, hyr, hlen⟩

/-- C10: the aggregator sizes the positional mapping from the first
word's length only.  For a non-empty result set whose words all share
the first word's length it is total, and returns the frequency-weighted
per-letter counts (each occurrence counted) and per-position counts;
for a result set containing a word longer than the first it raises
`KeyError` instead of returning. -/
theorem distributions_first_length (w0 : List Char) (f0 : Int)
    (rest : List (List Char × Int)) :
    ((∀ x ∈ (w0, f0) :: rest, x.1.length = w0.length) →
      ∃ d, compute_letter_distributions ((w0, f0) :: rest) = some d ∧
        (∀ ch, d.1 ch = (((w0, f0) :: rest).map
          (fun x => x.2 * ((x.1.map Char.toLower).count ch : Int))).sum) ∧
        (∀ j ch, d.2 j ch = ((((w0, f0) :: rest).filter
          (fun x => (x.1.map Char.toLower).get? j = some ch)).map
            Prod.snd).sum)) ∧
    ((∃ x ∈ (w0, f0) :: rest, w0.length < x.1.length) →
      compute_letter_distributions ((w0, f0) :: rest) = none) := by
  constructor
  · intro h
    obtain ⟨d, hd, ho, hp⟩ := distFold_spec w0.length ((w0, f0) :: rest)
      (fun _ => 0, fun _ _ => 0) (fun x hx => le_of_eq (h x hx))
    refine ⟨d, hd, fun ch => ?_, fun j ch => ?_⟩
    · simpa using ho ch
    · simpa using hp j ch
  · intro hex
    exact distFold_crash w0.length _ _ hex

/-- C10 witness: the totality half applied to a concrete same-length
result set. -/
theorem distributions_first_length_witness :
    ∃ d, compute_letter_distributions [(['a','b'], 2), (['b','b'], 3)] =
        some d ∧
      (∀ ch, d.1 ch = ([(['a','b'], (2 : Int)), (['b','b'], 3)].map
        (fun x => x.2 * ((x.1.map Char.toLower).count ch : Int))).sum) ∧
      (∀ j ch, d.2 j ch = (([(['a','b'], (2 : Int)), (['b','b'], 3)].filter
        (fun x => (x.1.map Char.toLower).get? j = some ch)).map
          Prod.snd).sum) :=
  (distributions_first_length ['a','b'] 2 [(['b','b'], 3)]).1 (by decide)

end WordleSolver

namespace WordleSolver

/-! ### C1 — feedback evaluator -/

theorem count_snd_zip_le (g : List Char) : ∀ (a : List Char) (c : Char),
    ((g.zip a).map Prod.snd).count c ≤ a.count c := by
  induction g with
  | nil => intro a c; simp
  | cons x g2 ih =>
      intro a c
      cases a with
      | nil => simp
      | cons y a2 =>
          rw [List.zip_cons_cons, List.map_cons]
          by_cases hyc : y = c
          · subst hyc
            rw [List.count_cons_self, List.count_cons_self]
            exact Nat.succ_le_succ (ih a2 y)
          · rw [List.count_cons_of_ne (fun hcy => hyc hcy.symm),
              List.count_cons_of_ne (fun hcy => hyc hcy.symm)]
            exact ih a2 c

theorem greens_count_le (g a : List Char) (c : Char) :
    (((g.zip a).filter (fun p => p.1 = p.2)).map Prod.snd).count c ≤
      a.count c := by
  have h1 : ((g.zip a).filter (fun p => p.1 = p.2)).Sublist (g.zip a) :=
    List.filter_sublist _
  exact le_trans ((h1.map Prod.snd).count_le c) (count_snd_zip_le g a c)

theorem pass1_cons_eq (gc ac : Char) (rest : List (Char × Char))
    (cnt : Char → Int) :
    pass1 ((gc, ac) :: rest) cnt =
      if gc = ac then
        ('G' :: (pass1 rest (decCnt cnt gc)).1, (pass1 rest (decCnt cnt gc)).2)
      else ('B' :: (pass1 rest cnt).1, (pass1 rest cnt).2) := by
  by_cases hga : gc = ac
  · simp only [pass1, if_pos hga]
  · simp only [pass1, if_neg hga]

theorem pass1N_cons_eq (gc ac : Char) (rest : List (Char × Char))
    (cnt : Char → Nat) :
    pass1N ((gc, ac) :: rest) cnt =
      if gc = ac then
        ('G' :: (pass1N rest (decCntN cnt gc)).1,
          (pass1N rest (decCntN cnt gc)).2)
      else ('B' :: (pass1N rest cnt).1, (pass1N rest cnt).2) := by
  by_cases hga : gc = ac
  · simp only [pass1N, if_pos hga]
  · simp only [pass1N, if_neg hga]

theorem pass2_agree : ∀ (pairs : List (Char × Char)) (cN : Char → Nat)
    (cI : Char → Int), (∀ x, cI x = cN x) →
    pass2 pairs cI = pass2N pairs cN := by
  intro pairs
  induction pairs with
  | nil => intro cN cI _; rfl
  | cons p rest ih =>
      intro cN cI h
      rcases p with ⟨gc, pc⟩
      rw [pass2, pass2N]
      by_cases hcond : pc = 'B' ∧ 0 < cI gc
      · have hcondN : pc = 'B' ∧ 0 < cN gc :=
          ⟨hcond.1, by have hg := h gc; have hp := hcond.2; omega⟩
        rw [if_pos hcond, if_pos hcondN]
        congr 1
        apply ih
        intro x
        rw [decCnt, decCntN]
        by_cases hxg : x = gc
        · rw [if_pos hxg, if_pos hxg]
          have hg := h gc
          have hp := hcondN.2
          omega
        · rw [if_neg hxg, if_neg hxg]
          exact h x
      · have hcondN : ¬(pc = 'B' ∧ 0 < cN gc) := by
          intro hcon
          exact hcond ⟨hcon.1, by have hg := h gc; have hp := hcon.2; omega⟩
        rw [if_neg hcond, if_neg hcondN]
        congr 1
        exact ih cN cI h

theorem pass1_agree : ∀ (pairs : List (Char × Char)) (cN : Char → Nat)
    (cI : Char → Int), (∀ x, cI x = cN x) →
    (∀ x, ((pairs.filter (fun p => p.1 = p.2)).map Prod.snd).count x ≤ cN x) →
    (pass1 pairs cI).1 = (pass1N pairs cN).1 ∧
    (∀ x, (pass1 pairs cI).2 x = ((pass1N pairs cN).2 x : Int)) := by
  intro pairs
  induction pairs with
  | nil => intro cN cI h _; exact ⟨rfl, h⟩
  | cons p rest ih =>
      intro cN cI h hsup
      rcases p with ⟨gc, ac⟩
      rw [pass1_cons_eq, pass1N_cons_eq]
      by_cases hga : gc = ac
      · subst hga
        rw [if_pos rfl, if_pos rfl]
        have hsup1 : ∀ x,
            ((rest.filter (fun p => p.1 = p.2)).map Prod.snd).count x ≤
              decCntN cN gc x := by
          intro x
          have hx := hsup x
          rw [List.filter_cons_of_pos (by simp), List.map_cons] at hx
          rw [decCntN]
          by_cases hxg : x = gc
          · subst hxg
            rw [List.count_cons_self] at hx
            rw [if_pos rfl]
            omega
          · rw [List.count_cons_of_ne hxg] at hx
            rw [if_neg hxg]
            exact hx
        have hgcpos : 0 < cN gc := by
          have hx := hsup gc
          rw [List.filter_cons_of_pos (by simp), List.map_cons,
            List.count_cons_self] at hx
          omega
        have hcnt : ∀ x, decCnt cI gc x = ((decCntN cN gc x : Nat) : Int) := by
          intro x
          rw [decCnt, decCntN]
          by_cases hxg : x = gc
          · rw [if_pos hxg, if_pos hxg]
            have hg := h gc
            omega
          · rw [if_neg hxg, if_neg hxg]
            exact h x
        obtain ⟨hpat, hcnt2⟩ := ih (decCntN cN gc) (decCnt cI gc) hcnt hsup1
        constructor
        · show 'G' :: (pass1 rest (decCnt cI gc)).1 =
            'G' :: (pass1N rest (decCntN cN gc)).1
          rw [hpat]
        · intro x
          exact hcnt2 x
      · rw [if_neg hga, if_neg hga]
        have hsup1 : ∀ x,
            ((rest.filter (fun p => p.1 = p.2)).map Prod.snd).count x ≤ cN x := by
          intro x
          have hx := hsup x
          rw [List.filter_cons_of_neg (by simpa using hga)] at hx
          exact hx
        obtain ⟨hpat, hcnt2⟩ := ih cN cI h hsup1
        constructor
        · show 'B' :: (pass1 rest cI).1 = 'B' :: (pass1N rest cN).1
          rw [hpat]
        · intro x
          exact hcnt2 x

theorem feedbackCore_eq_canonical (g a : List Char) :
    feedbackCore g a = canonicalFeedback g a := by
  simp only [feedbackCore, canonicalFeedback]
  obtain ⟨hpat, hcnt⟩ := pass1_agree
    ((g.map Char.toLower).zip (a.map Char.toLower))
    (fun c => (a.map Char.toLower).count c)
    (fun c => ((a.map Char.toLower).count c : Int))
    (fun _ => rfl)
    (fun x => greens_count_le (g.map Char.toLower) (a.map Char.toLower) x)
  rw [hpat]
  exact pass2_agree _ _ _ hcnt

/-- C1: for equal-length guess and answer, `get_feedback_pattern`
produces exactly the spec's canonical two-pass Wordle pattern (exact
matches consume the answer's letter supply first, then still-Absent
positions become Present left-to-right while supply remains); in
particular the two duplicate-letter examples evaluate as claimed. -/
theorem feedback_matches_canonical (g a : List Char) :
    (g.length = a.length →
      get_feedback_pattern g a = some (canonicalFeedback g a)) ∧
    get_feedback_pattern ['a','a','b','b','c'] ['b','a','b','a','c'] =
      some ['Y','G','G','Y','G'] ∧
    get_feedback_pattern ['e','d','c','b','a'] ['a','b','c','d','e'] =
      some ['Y','Y','G','Y','Y'] := by
  refine ⟨?_, by decide, by decide⟩
  intro hlen
  rw [get_feedback_pattern, if_pos (le_of_eq hlen),
    feedbackCore_eq_canonical]

/-- C1 witness: the canonical-pattern equation at a concrete
equal-length pair. -/
theorem feedback_matches_canonical_witness :
    get_feedback_pattern ['c','r','a','n','e'] ['e','a','r','t','h'] =
      some (canonicalFeedback ['c','r','a','n','e'] ['e','a','r','t','h']) :=
  (feedback_matches_canonical ['c','r','a','n','e'] ['e','a','r','t','h']).1 rfl

end WordleSolver

namespace WordleSolver

/-! ### C5 — weighted entropy -/

theorem sum_fiberwise {α β : Type} [DecidableEq β] (l : List α) (key : α → β)
    (f : α → Int) :
    (l.map f).sum = ∑ b in (l.map key).toFinset,
      ((l.filter (fun x => key x = b)).map f).sum := by
  induction l with
  | nil => simp
  | cons x rest ih =>
      rw [List.map_cons, List.sum_cons, List.map_cons, List.toFinset_cons]
      have hsplit : ∀ b,
          (((x :: rest).filter (fun y => key y = b)).map f).sum =
            ((rest.filter (fun y => key y = b)).map f).sum +
              (if key x = b then f x else 0) := by
        intro b
        by_cases hb : key x = b
        · rw [List.filter_cons_of_pos (by simpa using hb), List.map_cons,
            List.sum_cons, if_pos hb]
          ring
        · rw [List.filter_cons_of_neg (by simpa using hb), if_neg hb]
          ring
      rw [Finset.sum_congr rfl (fun b _ => hsplit b), Finset.sum_add_distrib,
        Finset.sum_ite_eq (insert (key x) (rest.map key).toFinset) (key x)
          (fun _ => f x),
        if_pos (Finset.mem_insert_self _ _)]
      by_cases hmem : key x ∈ (rest.map key).toFinset
      · rw [Finset.insert_eq_self.mpr hmem, ← ih]
        ring
      · rw [Finset.sum_insert hmem]
        have hnil : rest.filter (fun y => key y = key x) = [] := by
          rw [List.filter_eq_nil]
          intro y hy
          simp only [decide_eq_true_eq]
          intro hkey
          exact hmem (List.mem_toFinset.mpr
            (List.mem_map.mpr ⟨y, hy, hkey⟩))
        rw [hnil, ← ih]
        simp
        ring

theorem classMass_pos (g : List Char) (pool : List (List Char × Int))
    (pat : List Char) (hpos : ∀ x ∈ pool, 0 < x.2)
    (hpat : pat ∈ fbClasses g pool) : 0 < classMass g pool pat := by
  rw [classMass]
  apply List.sum_pos
  · intro i hi
    obtain ⟨x, hx, rfl⟩ := List.mem_map.mp hi
    exact hpos x (List.mem_filter.mp hx).1
  · obtain ⟨x, hx, hkey⟩ :=
      List.mem_map.mp (List.mem_toFinset.mp hpat)
    intro hnil
    have hxf : x ∈ pool.filter (fun y => feedbackKey g y = pat) :=
      List.mem_filter.mpr ⟨hx, by simpa using hkey⟩
    rw [List.map_eq_nil.mp hnil] at hxf
    exact absurd hxf (List.not_mem_nil x)

theorem poolMass_eq_sum_classes (g : List Char)
    (pool : List (List Char × Int)) :
    poolMass pool = ∑ pat in fbClasses g pool, classMass g pool pat :=
  sum_fiberwise pool (feedbackKey g) Prod.snd

theorem classMass_le_poolMass (g : List Char) (pool : List (List Char × Int))
    (pat : List Char) (hpos : ∀ x ∈ pool, 0 < x.2)
    (hpat : pat ∈ fbClasses g pool) :
    classMass g pool pat ≤ poolMass pool := by
  rw [poolMass_eq_sum_classes g pool]
  exact Finset.single_le_sum
    (fun p hp => le_of_lt (classMass_pos g pool p hpos hp)) hpat

end WordleSolver

namespace WordleSolver

/-- C5 counterexample: on the pool `[("aa", 5), ("ab", 0)]` with guess
`aa`, the pattern class of `ab` has zero total mass, so its share is 0
and `math.log2(0.0)` raises `ValueError`; the evaluator returns no
score, so the score is not non-negative on every pool. -/
theorem entropy_zero_mass_class_raises :
    score_weighted_entropy ['a','a'] [(['a','a'], 5), (['a','b'], 0)] =
      none := by
  have hnot : ¬(∀ pat ∈ fbClasses ['a','a'] [(['a','a'], 5), (['a','b'], 0)],
      0 < (classMass ['a','a'] [(['a','a'], 5), (['a','b'], 0)] pat : ℚ) /
        (poolMass [(['a','a'], 5), (['a','b'], 0)] : ℚ)) := by
    intro hall
    have hmem : feedbackKey ['a','a'] (['a','b'], (0 : Int)) ∈
        fbClasses ['a','a'] [(['a','a'], 5), (['a','b'], 0)] :=
      List.mem_toFinset.mpr (List.mem_map.mpr ⟨(['a','b'], 0), by simp, rfl⟩)
    have h := hall _ hmem
    rw [show classMass ['a','a'] [(['a','a'], 5), (['a','b'], 0)]
        (feedbackKey ['a','a'] (['a','b'], (0 : Int))) = 0 from by decide] at h
    norm_num at h
  rw [score_weighted_entropy, if_neg (by decide), if_pos (by decide),
    if_neg hnot]

/-- C5 (amended): a zero-mass pool scores a defined 0 (before any
pattern is computed); for a pool whose words have the guess's length and
whose frequencies are all positive, the score is defined, non-negative,
and zero iff the pool collapses to a single feedback pattern against the
guess; a pool containing a zero-frequency candidate alone in its pattern
class instead raises. -/
theorem entropy_nonneg_zero_iff (g : List Char)
    (pool : List (List Char × Int)) :
    (poolMass pool = 0 → score_weighted_entropy g pool = some 0) ∧
    ((∀ x ∈ pool, x.1.length = g.length) → (∀ x ∈ pool, 0 < x.2) →
      ∃ e, score_weighted_entropy g pool = some e ∧ 0 ≤ e ∧
        (e = 0 ↔ ∀ x ∈ pool, ∀ y ∈ pool,
          feedbackCore g x.1 = feedbackCore g y.1)) := by
  constructor
  · intro hT
    rw [score_weighted_entropy, if_pos hT]
  · intro hlen hpos
    by_cases hpool : pool = []
    · subst hpool
      refine ⟨0, ?_, le_refl 0, by simp⟩
      rw [score_weighted_entropy,
        if_pos (show poolMass ([] : List (List Char × Int)) = 0 from rfl)]
    · have hTpos : 0 < poolMass pool := by
        rw [poolMass]
        apply List.sum_pos
        · intro i hi
          obtain ⟨x, hx, rfl⟩ := List.mem_map.mp hi
          exact hpos x hx
        · exact fun hnil => hpool (List.map_eq_nil.mp hnil)
      have hTR : (0 : ℝ) < (poolMass pool : ℝ) := by exact_mod_cast hTpos
      have hall : pool.all (fun x => g.length ≤ x.1.length) = true := by
        rw [List.all_eq_true]
        intro x hx
        simp only [decide_eq_true_eq]
        exact (hlen x hx).ge
      have hq : ∀ pat ∈ fbClasses g pool,
          0 < (classMass g pool pat : ℚ) / (poolMass pool : ℚ) := by
        intro pat hpat
        apply div_pos
        · exact_mod_cast classMass_pos g pool pat hpos hpat
        · exact_mod_cast hTpos
      have hterm : ∀ pat ∈ fbClasses g pool,
          0 ≤ -(((classMass g pool pat : ℝ) / (poolMass pool : ℝ)) *
            Real.logb 2
              ((classMass g pool pat : ℝ) / (poolMass pool : ℝ))) := by
        intro pat hpat
        have hmpos : (0 : ℝ) < (classMass g pool pat : ℝ) := by
          exact_mod_cast classMass_pos g pool pat hpos hpat
        have hqpos : 0 < (classMass g pool pat : ℝ) / (poolMass pool : ℝ) :=
          div_pos hmpos hTR
        have hqle : (classMass g pool pat : ℝ) / (poolMass pool : ℝ) ≤ 1 := by
          rw [div_le_one hTR]
          exact_mod_cast classMass_le_poolMass g pool pat hpos hpat
        have hlog : Real.logb 2
            ((classMass g pool pat : ℝ) / (poolMass pool : ℝ)) ≤ 0 :=
          Real.logb_nonpos one_lt_two (le_of_lt hqpos) hqle
        exact neg_nonneg.mpr
          (mul_nonpos_iff.mpr (Or.inl ⟨le_of_lt hqpos, hlog⟩))
      rw [score_weighted_entropy, if_neg (ne_of_gt hTpos), if_pos hall,
        if_pos hq]
      refine ⟨_, rfl, ?_, ?_⟩
      · rw [← Finset.sum_neg_distrib]
        exact Finset.sum_nonneg hterm
      · rw [← Finset.sum_neg_distrib,
          Finset.sum_eq_zero_iff_of_nonneg hterm]
        constructor
        · intro hzero x hx y hy
          have hmT : ∀ pat ∈ fbClasses g pool,
              classMass g pool pat = poolMass pool := by
            intro pat hpat
            have h0 := hzero pat hpat
            rw [neg_eq_zero, mul_eq_zero] at h0
            have hqpos : 0 < (classMass g pool pat : ℝ) /
                (poolMass pool : ℝ) :=
              div_pos (by exact_mod_cast classMass_pos g pool pat hpos hpat)
                hTR
            rcases h0 with hq0 | hlog0
            · exact absurd hq0.symm (ne_of_lt hqpos)
            · rcases Real.logb_eq_zero.mp hlog0 with h | h | h | h | h | h
              · norm_num at h
              · norm_num at h
              · norm_num at h
              · exact absurd h.symm (ne_of_lt hqpos)
              · have hR : (classMass g pool pat : ℝ) = (poolMass pool : ℝ) :=
                  (div_eq_one_iff_eq (ne_of_gt hTR)).mp h
                exact_mod_cast hR
              · rw [h] at hqpos
                norm_num at hqpos
          have hcard : (fbClasses g pool).card = 1 := by
            have heq : poolMass pool =
                ((fbClasses g pool).card : Int) * poolMass pool := by
              conv_lhs => rw [poolMass_eq_sum_classes g pool]
              rw [Finset.sum_congr rfl hmT, Finset.sum_const, nsmul_eq_mul]
            have heq2 : (1 : Int) * poolMass pool =
                ((fbClasses g pool).card : Int) * poolMass pool := by
              rw [one_mul]
              exact heq
            have := mul_right_cancel₀ (ne_of_gt hTpos) heq2
            exact_mod_cast this.symm
          exact Finset.card_le_one.mp (le_of_eq hcard)
            (feedbackKey g x)
            (List.mem_toFinset.mpr (List.mem_map.mpr ⟨x, hx, rfl⟩))
            (feedbackKey g y)
            (List.mem_toFinset.mpr (List.mem_map.mpr ⟨y, hy, rfl⟩))
        · intro hsame pat hpat
          have hmT : classMass g pool pat = poolMass pool := by
            obtain ⟨x0, hx0, hkey⟩ :=
              List.mem_map.mp (List.mem_toFinset.mp hpat)
            have hfilter :
                pool.filter (fun y => feedbackKey g y = pat) = pool := by
              apply List.filter_eq_self.mpr
              intro y hy
              simp only [decide_eq_true_eq]
              rw [← hkey]
              exact hsame y hy x0 hx0
            rw [classMass, hfilter, poolMass]
          have hq1 : (classMass g pool pat : ℝ) / (poolMass pool : ℝ) = 1 := by
            rw [hmT]
            exact div_self (ne_of_gt hTR)
          rw [hq1, Real.logb_one, mul_zero, neg_zero]

/-- C5 witness: a singleton positive-frequency pool has a defined score
satisfying the amended properties. -/
theorem entropy_nonneg_zero_iff_witness :
    ∃ e, score_weighted_entropy ['a'] [(['a'], 1)] = some e ∧ 0 ≤ e ∧
      (e = 0 ↔ ∀ x ∈ [(['a'], (1 : Int))], ∀ y ∈ [(['a'], (1 : Int))],
        feedbackCore ['a'] x.1 = feedbackCore ['a'] y.1) :=
  (entropy_nonneg_zero_iff ['a'] [(['a'], 1)]).2 (by decide) (by decide)

end WordleSolver

namespace WordleSolver

/-! ### C6 — best-guess selector -/

theorem mapOption_mem {α β : Type} (f : α → Option β) :
    ∀ (l : List α) (out : List β), mapOption f l = some out →
      ∀ y ∈ out, ∃ x ∈ l, f x = some y := by
  intro l
  induction l with
  | nil =>
      intro out hout y hy
      rw [mapOption] at hout
      rw [← Option.some.inj hout] at hy
      exact absurd hy (List.not_mem_nil y)
  | cons a l2 ih =>
      intro out hout y hy
      rw [mapOption] at hout
      rcases hfa : f a with _ | b
      · rw [hfa] at hout
        cases hout
      · rw [hfa] at hout
        rcases hrest : mapOption f l2 with _ | out2
        · rw [hrest] at hout
          cases hout
        · rw [hrest] at hout
          have hcons : b :: out2 = out := Option.some.inj hout
          rw [← hcons] at hy
          rcases List.mem_cons.mp hy with rfl | hmem
          · exact ⟨a, List.mem_cons_self a l2, hfa⟩
          · obtain ⟨x, hx, hfx⟩ := ih out2 hrest y hmem
            exact ⟨x, List.mem_cons_of_mem a hx, hfx⟩

/-- C6: the selector returns the empty list on an empty candidate pool;
any returned list has length at most `top_n`; and whenever the cutoff is
unset or the pool size is at most the cutoff, every returned pair is a
pool word together with its weighted-entropy score against that very
pool. -/
theorem best_guesses_policy (wdl : List WordEntry)
    (pool : List (List Char × Int)) (overall : Char → Int)
    (cutoff : Option Nat) (top_n : Nat) (minf : Int) :
    (pool = [] → best_guesses wdl pool overall cutoff top_n minf = some []) ∧
    (∀ r, best_guesses wdl pool overall cutoff top_n minf = some r →
      r.length ≤ top_n) ∧
    ((cutoff = none ∨ ∃ c, cutoff = some c ∧ pool.length ≤ c) →
      ∀ r, best_guesses wdl pool overall cutoff top_n minf = some r →
        ∀ x ∈ r, x.1 ∈ pool.map Prod.fst ∧
          score_weighted_entropy x.1 pool = some x.2) := by
  refine ⟨?_, ?_, ?_⟩
  · intro h
    subst h
    rfl
  · intro r hr
    rcases pool with _ | ⟨first, rest⟩
    · rw [best_guesses] at hr
      rw [← Option.some.inj hr]
      exact Nat.zero_le top_n
    · simp only [best_guesses.eq_def] at hr
      split at hr
      · split at hr
        · cases hr
        · rw [← Option.some.inj hr, List.length_take]
          exact min_le_left _ _
      · rw [← Option.some.inj hr, List.length_take]
        exact min_le_left _ _
  · intro hcond r hr x hx
    rcases pool with _ | ⟨first, rest⟩
    · rw [best_guesses] at hr
      rw [← Option.some.inj hr] at hx
      exact absurd hx (List.not_mem_nil x)
    · simp only [best_guesses.eq_def] at hr
      split at hr
      · split at hr
        · cases hr
        · rename_i scores hmo
          have hxs : x ∈ scores := by
            rw [← Option.some.inj hr] at hx
            exact (sortDesc_perm Prod.snd scores).mem_iff.mp
              (List.take_subset top_n _ hx)
          obtain ⟨w, hw, hfw⟩ := mapOption_mem _ _ _ hmo x hxs
          rcases hsw : score_weighted_entropy w (first :: rest) with _ | s
          · rw [hsw] at hfw
            cases hfw
          · rw [hsw] at hfw
            have hxw : (w, s) = x := Option.some.inj hfw
            rw [← hxw]
            exact ⟨hw, hsw⟩
      · rename_i hcondF
        exfalso
        rcases hcond with rfl | ⟨c, rfl, hle⟩
        · exact hcondF rfl
        · exact hcondF (by simpa using hle)

/-- C6 witness: the empty-pool and length bounds at a concrete call. -/
theorem best_guesses_policy_witness :
    best_guesses [] [] (fun _ => 0) none 15 0 = some [] ∧
    ([] : List (List Char × ℝ)).length ≤ 15 :=
  ⟨(best_guesses_policy [] [] (fun _ => 0) none 15 0).1 rfl,
   (best_guesses_policy [] [] (fun _ => 0) none 15 0).2.1 []
     ((best_guesses_policy [] [] (fun _ => 0) none 15 0).1 rfl)⟩

end WordleSolver
